import Mathlib

/-!
Verification of the superoperator-connection enumerator of
`Sources/Operator/local_lindbladian.cc` (class `LocalLindbladian`).

The development has two layers.

Layer A embeds the enumeration protocol: a local operator is seen through
its connection enumeration (`ForEachConn` of the collaborator), i.e. as a
function from a configuration to the finite list of connections it emits,
and `LocalLindbladian::ForEachConnSuperOp`, `::ForEachConn` and `::FindConn`
are translated as continuation-passing folds over those lists, exactly
mirroring the callback-driven C++ code.  Machine `double`s are modelled by
`ℚ` and `std::complex<double>` by `Cplx` (a pair of rationals); the claims
under study only move these values around or combine them by exact ring
operations, so the model is faithful for them.

Layer B embeds the effective-Hamiltonian builder (`Init`,
`AddJumpOperator`, the constructor).  The local-operator algebra
(`Conjugate`, `Transpose`, `+`, `*`, scalar multiplication) lives in a
collaborator that is not part of the sources under study; following the
specification it is modelled by square complex matrices with the
corresponding matrix operations.
-/

/-! ## Complex scalars -/

/-- Complex numbers with rational components, modelling `std::complex<double>`. -/
structure Cplx where
  re : ℚ
  im : ℚ
deriving DecidableEq

instance : Zero Cplx := ⟨⟨0, 0⟩⟩

instance : One Cplx := ⟨⟨1, 0⟩⟩

instance : Add Cplx := ⟨fun a b => ⟨a.re + b.re, a.im + b.im⟩⟩

instance : Neg Cplx := ⟨fun a => ⟨-a.re, -a.im⟩⟩

instance : Mul Cplx := ⟨fun a b => ⟨a.re * b.re - a.im * b.im, a.re * b.im + a.im * b.re⟩⟩

/-- The imaginary unit, `std::complex<double>(0.0, 1.0)` in the source. -/
def Cplx.I : Cplx := ⟨0, 1⟩

/-- Complex conjugation, `std::conj`. -/
def Cplx.conj (a : Cplx) : Cplx := ⟨a.re, -a.im⟩

theorem Cplx.cext {a b : Cplx} (h1 : a.re = b.re) (h2 : a.im = b.im) : a = b := by
  cases a; cases b; cases h1; cases h2; rfl

@[simp] theorem Cplx.add_re (a b : Cplx) : (a + b).re = a.re + b.re := rfl

@[simp] theorem Cplx.add_im (a b : Cplx) : (a + b).im = a.im + b.im := rfl

@[simp] theorem Cplx.mul_re (a b : Cplx) : (a * b).re = a.re * b.re - a.im * b.im := rfl

@[simp] theorem Cplx.mul_im (a b : Cplx) : (a * b).im = a.re * b.im + a.im * b.re := rfl

@[simp] theorem Cplx.neg_re (a : Cplx) : (-a).re = -a.re := rfl

@[simp] theorem Cplx.neg_im (a : Cplx) : (-a).im = -a.im := rfl

@[simp] theorem Cplx.zero_re : (0 : Cplx).re = 0 := rfl

@[simp] theorem Cplx.zero_im : (0 : Cplx).im = 0 := rfl

@[simp] theorem Cplx.one_re : (1 : Cplx).re = 1 := rfl

@[simp] theorem Cplx.one_im : (1 : Cplx).im = 0 := rfl

instance : CommRing Cplx where
  add := (· + ·)
  add_assoc a b c := by apply Cplx.cext <;> simp <;> ring
  zero := 0
  zero_add a := by apply Cplx.cext <;> simp
  add_zero a := by apply Cplx.cext <;> simp
  nsmul := nsmulRec
  zsmul := zsmulRec
  add_comm a b := by apply Cplx.cext <;> simp <;> ring
  mul := (· * ·)
  left_distrib a b c := by apply Cplx.cext <;> simp <;> ring
  right_distrib a b c := by apply Cplx.cext <;> simp <;> ring
  zero_mul a := by apply Cplx.cext <;> simp
  mul_zero a := by apply Cplx.cext <;> simp
  mul_assoc a b c := by apply Cplx.cext <;> simp <;> ring
  one := 1
  one_mul a := by apply Cplx.cext <;> simp
  mul_one a := by apply Cplx.cext <;> simp
  neg := Neg.neg
  neg_add_cancel a := by apply Cplx.cext <;> simp
  mul_comm a b := by apply Cplx.cext <;> simp <;> ring

/-! ## Layer A: the enumeration protocol -/

/-- A configuration: an ordered sequence of (real) values, one per site. -/
abbrev Config := List ℚ

/-- One connection emitted by a local operator (`ConnectorRef` in the source):
a matrix element, the site indices that change, and their new values. -/
structure Conn where
  mel : Cplx
  tochange : List ℕ
  newconf : List ℚ
deriving DecidableEq

/-- A superoperator connection (`ConnectorSuperopRef` in the source): a scalar
together with independent row-side and column-side changes. -/
structure ConnSuperOp where
  mel : Cplx
  tochange_row : List ℕ
  newconf_row : List ℚ
  tochange_col : List ℕ
  newconf_col : List ℚ
deriving DecidableEq

/-- A local operator seen through its connection enumeration: for each input
configuration, the finite list of connections its `ForEachConn` produces, in
emission order. -/
abbrev GenOp := Config → List Conn

/-- The members of `LocalLindbladian` that its enumeration functions read:
the physical size `N` (`GetHilbertDoubled().SizePhysical()`), the two derived
operators `Hnh_dag_` and `Hnh_`, and the jump-operator list `jump_ops_`, each
operator abstracted by its connection enumeration. -/
structure LindbladianConns where
  N : ℕ
  Hnh_dag_ : GenOp
  Hnh_ : GenOp
  jump_ops_ : List GenOp

/-- `LocalLindbladian::ForEachConnSuperOp`: invoke `callback` on every
superoperator connection, in source order.  The callback threads a state of
type `σ` (the C++ callback is an arbitrary stateful closure).  First the
connections of `Hnh_dag_` on `vrow` with scalar `im * mel` and a pure
row-side change, then the connections of `Hnh_` on `vcol` with scalar
`-im * mel` and a pure column-side change, then for each jump operator (in
list order) the outer product of its connections on `vrow` and on `vcol`
with scalar `conj(mel_row) * mel_col`. -/
def ForEachConnSuperOp {σ : Type*} (L : LindbladianConns) (vrow vcol : Config)
    (callback : ConnSuperOp → σ → σ) (s0 : σ) : σ :=
  let s1 := (L.Hnh_dag_ vrow).foldl
    (fun s conn => callback ⟨Cplx.I * conn.mel, conn.tochange, conn.newconf, [], []⟩ s) s0
  let s2 := (L.Hnh_ vcol).foldl
    (fun s conn => callback ⟨-Cplx.I * conn.mel, [], [], conn.tochange, conn.newconf⟩ s) s1
  L.jump_ops_.foldl
    (fun s op => (op vrow).foldl
      (fun s conn_row => (op vcol).foldl
        (fun s conn_col => callback
          ⟨Cplx.conj conn_row.mel * conn_col.mel,
           conn_row.tochange, conn_row.newconf,
           conn_col.tochange, conn_col.newconf⟩ s) s) s)
    s2

/-- `LocalLindbladian::ForEachConn`: split `v` into `v.head(N)` (its first `N`
entries) and `v.tail(N)` (its last `N` entries), enumerate the superoperator
connections, and flatten each into a single connection over the doubled
configuration: row-side indices unchanged, column-side indices shifted by
`+N`, new-value lists concatenated row part first. -/
def ForEachConn {σ : Type*} (L : LindbladianConns) (v : Config)
    (callback : Conn → σ → σ) (s0 : σ) : σ :=
  ForEachConnSuperOp L (v.take L.N) (v.drop (v.length - L.N))
    (fun conn s => callback
      ⟨conn.mel,
       conn.tochange_row ++ conn.tochange_col.map (· + L.N),
       conn.newconf_row ++ conn.newconf_col⟩ s) s0

/-- `LocalLindbladian::FindConn`: the batch variant.  The three caller-supplied
containers are cleared first (so their previous contents, the last three
arguments here, never reach the result) and then each flattened connection is
appended to the three parallel outputs. -/
def FindConn (L : LindbladianConns) (v : Config)
    (mel0 : List Cplx) (connectors0 : List (List ℕ)) (newconfs0 : List (List ℚ)) :
    List Cplx × List (List ℕ) × List (List ℚ) :=
  ForEachConnSuperOp L (v.take L.N) (v.drop (v.length - L.N))
    (fun conn s =>
      (s.1 ++ [conn.mel],
       s.2.1 ++ [conn.tochange_row ++ conn.tochange_col.map (· + L.N)],
       s.2.2 ++ [conn.newconf_row ++ conn.newconf_col]))
    ([], [], [])

/-- The sequence of superoperator connections `ForEachConnSuperOp` emits, in
callback order (instantiating the callback with a list accumulator). -/
def superOpList (L : LindbladianConns) (vrow vcol : Config) : List ConnSuperOp :=
  ForEachConnSuperOp L vrow vcol (fun c s => s ++ [c]) []

/-- The sequence of flat connections `ForEachConn` delivers to its callback,
in callback order. -/
def connList (L : LindbladianConns) (v : Config) : List Conn :=
  ForEachConn L v (fun c s => s ++ [c]) []

/-! ### Characterisation of the emission sequences -/

/-- The unitary row term as the spec describes it: scalar multiplied by `+i`,
pure row-side change. -/
def uRowConn (c : Conn) : ConnSuperOp := ⟨Cplx.I * c.mel, c.tochange, c.newconf, [], []⟩

/-- The unitary column term as the spec describes it: scalar multiplied by
`-i`, pure column-side change. -/
def uColConn (c : Conn) : ConnSuperOp := ⟨-Cplx.I * c.mel, [], [], c.tochange, c.newconf⟩

/-- The dissipative cross term for one pair of connections, as the spec
describes it: scalar `conjugate(mel_row) * mel_col`, both changes carried. -/
def crossConn (cr cc : Conn) : ConnSuperOp :=
  ⟨Cplx.conj cr.mel * cc.mel, cr.tochange, cr.newconf, cc.tochange, cc.newconf⟩

/-- All cross terms of one jump operator: the outer product of its
enumerations on `vrow` and on `vcol`, row-major. -/
def crossTerms (op : GenOp) (vrow vcol : Config) : List ConnSuperOp :=
  (op vrow).flatMap fun cr => (op vcol).map fun cc => crossConn cr cc

/-- The emission sequence in the form the spec states it: unitary row terms,
then unitary column terms, then the cross terms of each jump operator in
list order. -/
def superConnsSpec (L : LindbladianConns) (vrow vcol : Config) : List ConnSuperOp :=
  (L.Hnh_dag_ vrow).map uRowConn ++ (L.Hnh_ vcol).map uColConn
    ++ L.jump_ops_.flatMap fun op => crossTerms op vrow vcol

theorem foldl_flatMap_eq {α β γ : Type*} (g : γ → α → γ) (f : β → List α)
    (l : List β) (s : γ) :
    (l.flatMap f).foldl g s = l.foldl (fun s b => (f b).foldl g s) s := by
  induction l generalizing s with
  | nil => rfl
  | cons b bs ih => simp [List.flatMap_cons, List.foldl_append, ih]

theorem forEachConnSuperOp_eq_foldl {σ : Type*} (L : LindbladianConns)
    (vrow vcol : Config) (cb : ConnSuperOp → σ → σ) (s0 : σ) :
    ForEachConnSuperOp L vrow vcol cb s0
      = (superConnsSpec L vrow vcol).foldl (fun s c => cb c s) s0 := by
  unfold ForEachConnSuperOp superConnsSpec
  simp only [List.foldl_append, List.foldl_map, foldl_flatMap_eq, crossTerms,
    uRowConn, uColConn, crossConn]

theorem foldl_push_eq {α β : Type*} (f : α → β) (l : List α) (s0 : List β) :
    l.foldl (fun s c => s ++ [f c]) s0 = s0 ++ l.map f := by
  induction l generalizing s0 with
  | nil => simp
  | cons c cs ih => simp [ih]

theorem foldl_push3_eq {α β γ δ : Type*} (f : α → β) (g : α → γ) (h : α → δ)
    (l : List α) (s : List β × List γ × List δ) :
    l.foldl (fun s c => (s.1 ++ [f c], s.2.1 ++ [g c], s.2.2 ++ [h c])) s
      = (s.1 ++ l.map f, s.2.1 ++ l.map g, s.2.2 ++ l.map h) := by
  induction l generalizing s with
  | nil => simp
  | cons c cs ih => simp [ih]

theorem superOpList_eq (L : LindbladianConns) (vrow vcol : Config) :
    superOpList L vrow vcol = superConnsSpec L vrow vcol := by
  unfold superOpList
  rw [forEachConnSuperOp_eq_foldl]
  exact (foldl_push_eq id _ []).trans (by simp)

/-- Folding one superoperator connection into a flat doubled-space connection,
exactly as the bodies of `ForEachConn` and `FindConn` do. -/
def flattenConn (N : ℕ) (c : ConnSuperOp) : Conn :=
  ⟨c.mel, c.tochange_row ++ c.tochange_col.map (· + N), c.newconf_row ++ c.newconf_col⟩

theorem connList_eq (L : LindbladianConns) (v : Config) :
    connList L v
      = (superConnsSpec L (v.take L.N) (v.drop (v.length - L.N))).map (flattenConn L.N) := by
  unfold connList ForEachConn
  rw [forEachConnSuperOp_eq_foldl]
  exact (foldl_push_eq (flattenConn L.N) _ []).trans (by simp)

theorem findConn_eq_connList (L : LindbladianConns) (v : Config)
    (mel0 : List Cplx) (connectors0 : List (List ℕ)) (newconfs0 : List (List ℚ)) :
    FindConn L v mel0 connectors0 newconfs0
      = ((connList L v).map Conn.mel,
         (connList L v).map Conn.tochange,
         (connList L v).map Conn.newconf) := by
  unfold FindConn
  rw [forEachConnSuperOp_eq_foldl, connList_eq]
  refine (foldl_push3_eq (fun c => (flattenConn L.N c).mel)
    (fun c => (flattenConn L.N c).tochange) (fun c => (flattenConn L.N c).newconf) _ _).trans ?_
  simp [List.map_map, Function.comp_def]

/-! ## Layer B: the effective-Hamiltonian builder -/

/-- Modelled from the spec: the local-operator collaborator (its sources are
not part of the files under study) exposes conjugation, transposition,
addition and scalar multiplication as "pure, side-effect-free transforms
producing a new operator value" with the semantics of the corresponding
operator (matrix) operations; we therefore model a local operator on an
`n`-dimensional space by its matrix, and those operations by the matrix
operations. -/
abbrev Op (n : ℕ) := Matrix (Fin n) (Fin n) Cplx

/-- Entrywise complex conjugation of a local operator (`LocalOperator::Conjugate`). -/
def Conjugate {n : ℕ} (A : Op n) : Op n := Matrix.of fun i j => Cplx.conj (A i j)

theorem conjugate_transpose_comm {n : ℕ} (A : Op n) :
    (Conjugate A).transpose = Conjugate A.transpose := rfl

/-- The state of a `LocalLindbladian`: the Hamiltonian `H_`, the derived
operators `Hnh_` and `Hnh_dag_`, and the jump-operator list `jump_ops_`. -/
structure LocalLindbladian (n : ℕ) where
  H_ : Op n
  Hnh_ : Op n
  Hnh_dag_ : Op n
  jump_ops_ : List (Op n)

/-- The sum the loop of `LocalLindbladian::Init` accumulates:
starting from `H_`, add `(-0.5 * j) * L.Conjugate().Transpose() * L` for every
jump operator `L` in list order. -/
def hnhOf {n : ℕ} (H : Op n) (ops : List (Op n)) : Op n :=
  ops.foldl
    (fun acc L => acc + (((⟨-(1/2 : ℚ), 0⟩ : Cplx) * Cplx.I) • (Conjugate L).transpose) * L)
    H

/-- `LocalLindbladian::Init`: recompute `Hnh_` from scratch from `H_` and the
current jump-operator list, then set `Hnh_dag_ = Hnh_.Conjugate().Transpose()`. -/
def Init {n : ℕ} (st : LocalLindbladian n) : LocalLindbladian n :=
  let Hnh := hnhOf st.H_ st.jump_ops_
  { st with Hnh_ := Hnh, Hnh_dag_ := (Conjugate Hnh).transpose }

/-- The `LocalLindbladian` constructor: initialise all operator members to `H`
(member initialisers `Hnh_(H), H_(H), Hnh_dag_(H)`), with an empty
jump-operator list, then call `Init`. -/
def mkLocalLindbladian {n : ℕ} (H : Op n) : LocalLindbladian n :=
  Init { H_ := H, Hnh_ := H, Hnh_dag_ := H, jump_ops_ := [] }

/-- `LocalLindbladian::AddJumpOperator`: append the operator to the list, then
call `Init`. -/
def AddJumpOperator {n : ℕ} (st : LocalLindbladian n) (op : Op n) : LocalLindbladian n :=
  Init { st with jump_ops_ := st.jump_ops_ ++ [op] }

theorem foldl_add_eq {α : Type*} {M : Type*} [AddMonoid M] (f : α → M)
    (l : List α) (b : M) :
    l.foldl (fun a x => a + f x) b = b + (l.map f).sum := by
  induction l generalizing b with
  | nil => simp
  | cons x xs ih => simp [ih, add_assoc]

theorem lind_foldl {n : ℕ} (H : Op n) (ops : List (Op n)) :
    ops.foldl AddJumpOperator (mkLocalLindbladian H)
      = { H_ := H, Hnh_ := hnhOf H ops,
          Hnh_dag_ := (Conjugate (hnhOf H ops)).transpose, jump_ops_ := ops } := by
  have aux : ∀ (xs ops0 : List (Op n)),
      xs.foldl AddJumpOperator
          { H_ := H, Hnh_ := hnhOf H ops0,
            Hnh_dag_ := (Conjugate (hnhOf H ops0)).transpose, jump_ops_ := ops0 }
        = { H_ := H, Hnh_ := hnhOf H (ops0 ++ xs),
            Hnh_dag_ := (Conjugate (hnhOf H (ops0 ++ xs))).transpose,
            jump_ops_ := ops0 ++ xs } := by
    intro xs
    induction xs with
    | nil => intro ops0; simp
    | cons x xs ih =>
        intro ops0
        have h1 : AddJumpOperator
            { H_ := H, Hnh_ := hnhOf H ops0,
              Hnh_dag_ := (Conjugate (hnhOf H ops0)).transpose, jump_ops_ := ops0 } x
            = { H_ := H, Hnh_ := hnhOf H (ops0 ++ [x]),
                Hnh_dag_ := (Conjugate (hnhOf H (ops0 ++ [x]))).transpose,
                jump_ops_ := ops0 ++ [x] } := rfl
        rw [List.foldl_cons, h1, ih]
        simp
  have hmk : mkLocalLindbladian H
      = { H_ := H, Hnh_ := hnhOf H ([] : List (Op n)),
          Hnh_dag_ := (Conjugate (hnhOf H ([] : List (Op n)))).transpose,
          jump_ops_ := ([] : List (Op n)) } := rfl
  rw [hmk, aux ops []]
  simp

/-- The value of the term added for one jump operator, rewritten into the form
the spec states: `(-i/2) * conjugate(transpose(L)) * L`. -/
theorem hnhOf_eq_sum {n : ℕ} (H : Op n) (ops : List (Op n)) :
    hnhOf H ops
      = H + (ops.map fun L => (⟨0, -(1/2 : ℚ)⟩ : Cplx) • (Conjugate L.transpose * L)).sum := by
  unfold hnhOf
  rw [foldl_add_eq]
  have hsc : ((⟨-(1/2 : ℚ), 0⟩ : Cplx) * Cplx.I) = (⟨0, -(1/2 : ℚ)⟩ : Cplx) := by
    apply Cplx.cext <;> simp [Cplx.I]
  have hfun : (fun L : Op n =>
        (((⟨-(1/2 : ℚ), 0⟩ : Cplx) * Cplx.I) • (Conjugate L).transpose) * L)
      = fun L : Op n => (⟨0, -(1/2 : ℚ)⟩ : Cplx) • (Conjugate L.transpose * L) := by
    funext L
    rw [hsc, conjugate_transpose_comm, Matrix.smul_mul]
  rw [hfun]

/-! ### Auxiliary length and segment lemmas -/

theorem crossTerms_length (op : GenOp) (vrow vcol : Config) :
    (crossTerms op vrow vcol).length = (op vrow).length * (op vcol).length := by
  unfold crossTerms
  suffices h : ∀ l : List Conn,
      (l.flatMap fun cr => (op vcol).map fun cc => crossConn cr cc).length
        = l.length * (op vcol).length from h (op vrow)
  intro l
  induction l with
  | nil => simp
  | cons c cs ih => simp [List.flatMap_cons, ih]; ring

theorem flatMap_crossTerms_length (jump : List GenOp) (vrow vcol : Config) :
    (jump.flatMap fun op => crossTerms op vrow vcol).length
      = (jump.map fun op => (op vrow).length * (op vcol).length).sum := by
  induction jump with
  | nil => simp
  | cons op ops ih => simp [List.flatMap_cons, crossTerms_length, ih]

theorem superOpList_drop_cross (L : LindbladianConns) (vrow vcol : Config) :
    (superOpList L vrow vcol).drop ((L.Hnh_dag_ vrow).length + (L.Hnh_ vcol).length)
      = L.jump_ops_.flatMap fun op => crossTerms op vrow vcol := by
  rw [superOpList_eq]
  unfold superConnsSpec
  have h : ((L.Hnh_dag_ vrow).map uRowConn ++ (L.Hnh_ vcol).map uColConn).length
      = (L.Hnh_dag_ vrow).length + (L.Hnh_ vcol).length := by simp
  rw [← h, List.drop_left]

/-! ### Concrete instances used by the witnesses -/

/-- A sample local-operator enumeration: on any configuration, one connection
that flips site `0` to the value `1` with matrix element `1`. -/
def genA : GenOp := fun _ => [⟨⟨1, 0⟩, [0], [1]⟩]

/-- A sample local-operator enumeration: one connection setting site `0` to
`0` with matrix element `i`. -/
def genB : GenOp := fun _ => [⟨⟨0, 1⟩, [0], [0]⟩]

/-- A sample enumeration state with one jump operator (`N = 1`). -/
def sampleL : LindbladianConns := ⟨1, genA, genB, [genA]⟩

/-- A sample enumeration state with an empty jump-operator list (`N = 1`). -/
def emptyJumpL : LindbladianConns := ⟨1, genA, genB, []⟩

/-- A sample `1 × 1` Hamiltonian. -/
def mH : Op 1 := Matrix.of fun _ _ => ⟨2, 0⟩

/-- A sample `1 × 1` jump operator. -/
def mA : Op 1 := Matrix.of fun _ _ => ⟨1, 0⟩

/-- Another sample `1 × 1` jump operator. -/
def mB : Op 1 := Matrix.of fun _ _ => ⟨0, 1⟩

/-! ## The claims -/

/-- C1: for every jump operator (in list order) and every pair of connections
drawn from its enumerations on `vrow` and on `vcol`, the dissipative segment
of `ForEachConnSuperOp`'s emission sequence holds exactly one cross-term
connection, with scalar `conjugate(mel_row) * mel_col`, the row connection's
change on the row side and the column connection's change on the column side;
with a single jump operator having `r` row connections and `c` column
connections, exactly `r * c` cross terms are emitted, and no cross term mixes
two different jump operators. -/
theorem C1_cross_term_outer_product (L : LindbladianConns) (vrow vcol : Config) :
    (superOpList L vrow vcol).drop ((L.Hnh_dag_ vrow).length + (L.Hnh_ vcol).length)
        = L.jump_ops_.flatMap (fun op =>
            (op vrow).flatMap fun conn_row => (op vcol).map fun conn_col =>
              ⟨Cplx.conj conn_row.mel * conn_col.mel,
               conn_row.tochange, conn_row.newconf,
               conn_col.tochange, conn_col.newconf⟩)
      ∧ ∀ op : GenOp,
          ((superOpList { L with jump_ops_ := [op] } vrow vcol).drop
              ((L.Hnh_dag_ vrow).length + (L.Hnh_ vcol).length)).length
            = (op vrow).length * (op vcol).length := by
  constructor
  · rw [superOpList_drop_cross]
    rfl
  · intro op
    have h := superOpList_drop_cross { L with jump_ops_ := [op] } vrow vcol
    rw [h]
    simp [crossTerms_length]

/-- C2: for row and column configurations of length `N`, the unitary part of
the emission sequence consists of the connections of `Hnh_dag_` on `vrow`,
each with its matrix element multiplied by `+i` as a pure row-side change,
followed by the connections of `Hnh_` on `vcol`, each with its matrix element
multiplied by `-i` as a pure column-side change. -/
theorem C2_unitary_terms (L : LindbladianConns) (vrow vcol : Config)
    (hrow : vrow.length = L.N) (hcol : vcol.length = L.N) :
    (superOpList L vrow vcol).take (L.Hnh_dag_ vrow).length
        = (L.Hnh_dag_ vrow).map (fun conn =>
            ⟨Cplx.I * conn.mel, conn.tochange, conn.newconf, [], []⟩)
      ∧ ((superOpList L vrow vcol).drop (L.Hnh_dag_ vrow).length).take (L.Hnh_ vcol).length
        = (L.Hnh_ vcol).map (fun conn =>
            ⟨-Cplx.I * conn.mel, [], [], conn.tochange, conn.newconf⟩) := by
  have hA : ((L.Hnh_dag_ vrow).map uRowConn).length = (L.Hnh_dag_ vrow).length := by simp
  have hB : ((L.Hnh_ vcol).map uColConn).length = (L.Hnh_ vcol).length := by simp
  constructor
  · rw [superOpList_eq]
    unfold superConnsSpec
    rw [List.append_assoc, List.take_left' hA]
    rfl
  · rw [superOpList_eq]
    unfold superConnsSpec
    rw [List.append_assoc, List.drop_left' hA, List.take_left' hB]
    rfl

/-- C2 witness: the theorem applied to a concrete state and configurations of
length `N = 1`. -/
theorem C2_unitary_terms_witness :
    (superOpList sampleL [(0 : ℚ)] [(0 : ℚ)]).take (sampleL.Hnh_dag_ [(0 : ℚ)]).length
        = (sampleL.Hnh_dag_ [(0 : ℚ)]).map (fun conn =>
            ⟨Cplx.I * conn.mel, conn.tochange, conn.newconf, [], []⟩)
      ∧ ((superOpList sampleL [(0 : ℚ)] [(0 : ℚ)]).drop
            (sampleL.Hnh_dag_ [(0 : ℚ)]).length).take (sampleL.Hnh_ [(0 : ℚ)]).length
        = (sampleL.Hnh_ [(0 : ℚ)]).map (fun conn =>
            ⟨-Cplx.I * conn.mel, [], [], conn.tochange, conn.newconf⟩) :=
  C2_unitary_terms sampleL [(0 : ℚ)] [(0 : ℚ)] rfl rfl

/-- C4: the three output sequences of `FindConn`, zipped element-wise, agree
exactly — same length, same order, same values — with the sequence of
`(mel, tochange, newconf)` triples `ForEachConn` delivers to its callback for
the same input. -/
theorem C4_findConn_forEachConn_equivalence (L : LindbladianConns) (v : Config)
    (mel0 : List Cplx) (connectors0 : List (List ℕ)) (newconfs0 : List (List ℚ)) :
    (FindConn L v mel0 connectors0 newconfs0).1.length = (connList L v).length
    ∧ (FindConn L v mel0 connectors0 newconfs0).2.1.length = (connList L v).length
    ∧ (FindConn L v mel0 connectors0 newconfs0).2.2.length = (connList L v).length
    ∧ (FindConn L v mel0 connectors0 newconfs0).1.zip
        ((FindConn L v mel0 connectors0 newconfs0).2.1.zip
          (FindConn L v mel0 connectors0 newconfs0).2.2)
      = (connList L v).map fun conn => (conn.mel, conn.tochange, conn.newconf) := by
  rw [findConn_eq_connList]
  refine ⟨by simp, by simp, by simp, ?_⟩
  rw [List.zip_map', List.zip_map']

/-- C6: the emission order is the unitary row term, then the unitary column
term, then the dissipative cross terms in jump-operator list order with a
nested row-then-column order inside each jump operator; nothing is sorted,
deduplicated or combined — the length of the output is the full sum of the
lengths of all the contributing enumerations. -/
theorem C6_enumeration_order (L : LindbladianConns) (vrow vcol : Config) :
    superOpList L vrow vcol
        = (L.Hnh_dag_ vrow).map (fun conn =>
            ⟨Cplx.I * conn.mel, conn.tochange, conn.newconf, [], []⟩)
            ++ (L.Hnh_ vcol).map (fun conn =>
              ⟨-Cplx.I * conn.mel, [], [], conn.tochange, conn.newconf⟩)
            ++ L.jump_ops_.flatMap (fun op =>
              (op vrow).flatMap fun conn_row => (op vcol).map fun conn_col =>
                ⟨Cplx.conj conn_row.mel * conn_col.mel,
                 conn_row.tochange, conn_row.newconf,
                 conn_col.tochange, conn_col.newconf⟩)
      ∧ (superOpList L vrow vcol).length
          = (L.Hnh_dag_ vrow).length + (L.Hnh_ vcol).length
              + (L.jump_ops_.map fun op => (op vrow).length * (op vcol).length).sum := by
  constructor
  · rw [superOpList_eq]
    rfl
  · rw [superOpList_eq]
    unfold superConnsSpec
    rw [List.length_append, List.length_append, List.length_map, List.length_map,
      flatMap_crossTerms_length]

/-- C10: `FindConn` clears all three output containers before appending, so
its result does not depend on the containers' previous contents and consists
of exactly the connections of the current call. -/
theorem C10_findConn_clears_outputs (L : LindbladianConns) (v : Config)
    (mel0 mel0' : List Cplx) (connectors0 connectors0' : List (List ℕ))
    (newconfs0 newconfs0' : List (List ℚ)) :
    FindConn L v mel0 connectors0 newconfs0 = FindConn L v mel0' connectors0' newconfs0'
    ∧ FindConn L v mel0 connectors0 newconfs0
        = ((connList L v).map Conn.mel,
           (connList L v).map Conn.tochange,
           (connList L v).map Conn.newconf) :=
  ⟨rfl, findConn_eq_connList L v mel0 connectors0 newconfs0⟩

/-- C3: after construction and after every `AddJumpOperator` call (i.e. in
every state reachable by the constructor followed by any sequence of
`AddJumpOperator` calls, both of which rerun `Init` eagerly and totally), the
derived pair satisfies `Hnh = H + Σ (-i/2) * conjugate(transpose(L)) * L`
over the current jump-operator list and `Hnh_dag = conjugate(transpose(Hnh))`. -/
theorem C3_effective_hamiltonian_invariant (n : ℕ) (H : Op n) (ops : List (Op n)) :
    (ops.foldl AddJumpOperator (mkLocalLindbladian H)).H_ = H
    ∧ (ops.foldl AddJumpOperator (mkLocalLindbladian H)).jump_ops_ = ops
    ∧ (ops.foldl AddJumpOperator (mkLocalLindbladian H)).Hnh_
        = H + (ops.map fun L =>
            (⟨0, -(1/2 : ℚ)⟩ : Cplx) • (Conjugate L.transpose * L)).sum
    ∧ (ops.foldl AddJumpOperator (mkLocalLindbladian H)).Hnh_dag_
        = Conjugate ((ops.foldl AddJumpOperator (mkLocalLindbladian H)).Hnh_).transpose := by
  rw [lind_foldl]
  exact ⟨rfl, rfl, hnhOf_eq_sum H ops, rfl⟩

/-- C9: adding the same multiset of jump operators in any two orders yields
the same `Hnh_` and `Hnh_dag_` pair. -/
theorem C9_jump_operator_order_invariance (n : ℕ) (H : Op n)
    (ops1 ops2 : List (Op n)) (hperm : ops1.Perm ops2) :
    (ops1.foldl AddJumpOperator (mkLocalLindbladian H)).Hnh_
        = (ops2.foldl AddJumpOperator (mkLocalLindbladian H)).Hnh_
    ∧ (ops1.foldl AddJumpOperator (mkLocalLindbladian H)).Hnh_dag_
        = (ops2.foldl AddJumpOperator (mkLocalLindbladian H)).Hnh_dag_ := by
  have hh : hnhOf H ops1 = hnhOf H ops2 := by
    unfold hnhOf
    rw [foldl_add_eq, foldl_add_eq, (hperm.map _).sum_eq]
  rw [lind_foldl, lind_foldl]
  exact ⟨hh, by rw [hh]⟩

/-- C9 witness: the theorem applied to two concrete jump operators added in
the two possible orders. -/
theorem C9_jump_operator_order_invariance_witness :
    ([mA, mB].foldl AddJumpOperator (mkLocalLindbladian mH)).Hnh_
        = ([mB, mA].foldl AddJumpOperator (mkLocalLindbladian mH)).Hnh_
    ∧ ([mA, mB].foldl AddJumpOperator (mkLocalLindbladian mH)).Hnh_dag_
        = ([mB, mA].foldl AddJumpOperator (mkLocalLindbladian mH)).Hnh_dag_ :=
  C9_jump_operator_order_invariance 1 mH [mA, mB] [mB, mA] (List.Perm.swap mB mA [])

/-- C8: with an empty jump-operator list the enumeration consists of exactly
the two unitary terms — as a list and as a set — and the constructor yields
`Hnh = H` (no dissipative correction). -/
theorem C8_closed_system_reduction :
    (∀ (L : LindbladianConns) (vrow vcol : Config), L.jump_ops_ = [] →
      superOpList L vrow vcol
          = (L.Hnh_dag_ vrow).map (fun conn =>
              ⟨Cplx.I * conn.mel, conn.tochange, conn.newconf, [], []⟩)
            ++ (L.Hnh_ vcol).map (fun conn =>
              ⟨-Cplx.I * conn.mel, [], [], conn.tochange, conn.newconf⟩)
        ∧ ∀ c : ConnSuperOp,
            c ∈ superOpList L vrow vcol
              ↔ (∃ cr ∈ L.Hnh_dag_ vrow,
                    c = ⟨Cplx.I * cr.mel, cr.tochange, cr.newconf, [], []⟩)
                ∨ ∃ cc ∈ L.Hnh_ vcol,
                    c = ⟨-Cplx.I * cc.mel, [], [], cc.tochange, cc.newconf⟩)
    ∧ ∀ (n : ℕ) (H : Op n), (mkLocalLindbladian H).Hnh_ = H := by
  constructor
  · intro L vrow vcol hempty
    have he : superOpList L vrow vcol
        = (L.Hnh_dag_ vrow).map (fun conn =>
            ⟨Cplx.I * conn.mel, conn.tochange, conn.newconf, [], []⟩)
          ++ (L.Hnh_ vcol).map (fun conn =>
            ⟨-Cplx.I * conn.mel, [], [], conn.tochange, conn.newconf⟩) := by
      rw [superOpList_eq]
      unfold superConnsSpec
      rw [hempty]
      simp only [List.flatMap_nil, List.append_nil]
      rfl
    refine ⟨he, fun c => ?_⟩
    rw [he]
    simp only [List.mem_append, List.mem_map]
    constructor
    · rintro (⟨cr, hcr, hc⟩ | ⟨cc, hcc, hc⟩)
      · exact Or.inl ⟨cr, hcr, hc.symm⟩
      · exact Or.inr ⟨cc, hcc, hc.symm⟩
    · rintro (⟨cr, hcr, hc⟩ | ⟨cc, hcc, hc⟩)
      · exact Or.inl ⟨cr, hcr, hc.symm⟩
      · exact Or.inr ⟨cc, hcc, hc.symm⟩
  · intro n H
    rfl

/-- C8 witness: the theorem applied to a concrete empty-jump-list state and
to a concrete Hamiltonian. -/
theorem C8_closed_system_reduction_witness :
    superOpList emptyJumpL [(0 : ℚ)] [(0 : ℚ)]
        = (emptyJumpL.Hnh_dag_ [(0 : ℚ)]).map (fun conn =>
            ⟨Cplx.I * conn.mel, conn.tochange, conn.newconf, [], []⟩)
          ++ (emptyJumpL.Hnh_ [(0 : ℚ)]).map (fun conn =>
            ⟨-Cplx.I * conn.mel, [], [], conn.tochange, conn.newconf⟩)
    ∧ (mkLocalLindbladian mH).Hnh_ = mH :=
  ⟨(C8_closed_system_reduction.1 emptyJumpL [(0 : ℚ)] [(0 : ℚ)] rfl).1,
   C8_closed_system_reduction.2 1 mH⟩

/-! ### Site-index validity -/

/-- A local-operator enumeration is valid for physical size `N` when every
site index it reports lies in `[0, N)` (the local-operator contract: the
operator acts on the `N` physical sites). -/
def GenValid (N : ℕ) (g : GenOp) : Prop :=
  ∀ v : Config, ∀ conn ∈ g v, ∀ idx ∈ conn.tochange, idx < N

/-- All operators held by the enumeration state are valid for its `N`. -/
def LindValid (L : LindbladianConns) : Prop :=
  GenValid L.N L.Hnh_dag_ ∧ GenValid L.N L.Hnh_ ∧ ∀ op ∈ L.jump_ops_, GenValid L.N op

theorem mem_superOpList_bounds (L : LindbladianConns) (vrow vcol : Config)
    (hL : LindValid L) (sc : ConnSuperOp) (hsc : sc ∈ superOpList L vrow vcol) :
    (∀ i ∈ sc.tochange_row, i < L.N) ∧ ∀ i ∈ sc.tochange_col, i < L.N := by
  rcases hL with ⟨hdag, hnh, hops⟩
  rw [superOpList_eq] at hsc
  unfold superConnsSpec at hsc
  simp only [List.mem_append, List.mem_map, List.mem_flatMap] at hsc
  rcases hsc with (⟨c, hc, rfl⟩ | ⟨c, hc, rfl⟩) | ⟨op, hop, hsc⟩
  · refine ⟨fun i hi => hdag vrow c hc i hi, fun i hi => ?_⟩
    simp [uRowConn] at hi
  · refine ⟨fun i hi => ?_, fun i hi => hnh vcol c hc i hi⟩
    simp [uColConn] at hi
  · unfold crossTerms at hsc
    simp only [List.mem_flatMap, List.mem_map] at hsc
    rcases hsc with ⟨cr, hcr, cc, hcc, rfl⟩
    exact ⟨fun i hi => hops op hop vrow cr hcr i hi,
           fun i hi => hops op hop vcol cc hcc i hi⟩

/-- C5: every flat connection the adapter emits comes from a superoperator
connection by concatenating the row-side change indices unmodified with the
column-side indices shifted by `+N` and the new-value lists row part first;
consequently (for operators respecting the site-index contract) every changed
index `>= N` is `N` plus a column-side index and every changed index `< N`
is a row-side index. -/
theorem C5_flat_connection_offsets (L : LindbladianConns) (v : Config) (c : Conn)
    (hL : LindValid L) (hc : c ∈ connList L v) :
    ∃ sc ∈ superOpList L (v.take L.N) (v.drop (v.length - L.N)),
      c.mel = sc.mel
      ∧ c.tochange = sc.tochange_row ++ sc.tochange_col.map (fun j => j + L.N)
      ∧ c.newconf = sc.newconf_row ++ sc.newconf_col
      ∧ (∀ i ∈ c.tochange, L.N ≤ i → ∃ j ∈ sc.tochange_col, i = L.N + j)
      ∧ (∀ i ∈ c.tochange, i < L.N → i ∈ sc.tochange_row) := by
  rw [connList_eq, ← superOpList_eq] at hc
  rcases List.mem_map.mp hc with ⟨sc, hsc, rfl⟩
  have hb := mem_superOpList_bounds L _ _ hL sc hsc
  refine ⟨sc, hsc, rfl, rfl, rfl, ?_, ?_⟩
  · intro i hi hNi
    simp only [flattenConn, List.mem_append, List.mem_map] at hi
    rcases hi with hrow | ⟨j, hj, rfl⟩
    · have := hb.1 i hrow
      omega
    · exact ⟨j, hj, by omega⟩
  · intro i hi hlt
    simp only [flattenConn, List.mem_append, List.mem_map] at hi
    rcases hi with hrow | ⟨j, hj, rfl⟩
    · exact hrow
    · omega

/-- A doubled configuration of length `2` for `N = 1`. -/
def vW : Config := [(0 : ℚ), 0]

/-- The first flat connection `ForEachConn` emits on `emptyJumpL` and `vW`. -/
def cW : Conn := ⟨Cplx.I * ⟨1, 0⟩, [0], [(1 : ℚ)]⟩

/-- C5 witness: the theorem applied to a concrete state, configuration and
emitted connection. -/
theorem C5_flat_connection_offsets_witness :
    ∃ sc ∈ superOpList emptyJumpL (vW.take emptyJumpL.N)
        (vW.drop (vW.length - emptyJumpL.N)),
      cW.mel = sc.mel
      ∧ cW.tochange = sc.tochange_row ++ sc.tochange_col.map (fun j => j + emptyJumpL.N)
      ∧ cW.newconf = sc.newconf_row ++ sc.newconf_col
      ∧ (∀ i ∈ cW.tochange, emptyJumpL.N ≤ i → ∃ j ∈ sc.tochange_col, i = emptyJumpL.N + j)
      ∧ (∀ i ∈ cW.tochange, i < emptyJumpL.N → i ∈ sc.tochange_row) :=
  C5_flat_connection_offsets emptyJumpL vW cW
    (by
      refine ⟨?_, ?_, ?_⟩
      · intro v conn hconn idx hidx
        simp only [emptyJumpL, genA, List.mem_singleton] at hconn
        subst hconn
        simp only [List.mem_singleton] at hidx
        subst hidx
        decide
      · intro v conn hconn idx hidx
        simp only [emptyJumpL, genB, List.mem_singleton] at hconn
        subst hconn
        simp only [List.mem_singleton] at hidx
        subst hidx
        decide
      · intro op hop
        simp only [emptyJumpL, List.not_mem_nil] at hop)
    (by
      rw [show connList emptyJumpL vW
          = [cW, ⟨-Cplx.I * ⟨0, 1⟩, [1], [(0 : ℚ)]⟩] from rfl]
      exact List.mem_cons_self _ _)

/-- A configuration of length `3`, which is not `2 * N` for `N = 1`. -/
def v7 : Config := [(0 : ℚ), 1, 2]

/-- C7 counterexample: on an input configuration of length `1 ≠ 2 * N` the
enumeration does not fail — `ForEachConn` invokes its callback twice and
`FindConn` appends two results, so no `InvalidArgument`-class failure is
raised before (or instead of) the callbacks. -/
theorem C7_no_failure_on_bad_length :
    [(0 : ℚ)].length ≠ 2 * emptyJumpL.N
    ∧ (connList emptyJumpL [(0 : ℚ)]).length = 2
    ∧ (FindConn emptyJumpL [(0 : ℚ)] [] [] []).1.length = 2 :=
  ⟨by decide, rfl, rfl⟩

/-- C7 (amended): `ForEachConn` and `FindConn` perform no size validation at
all; for any input holding at least `N` entries they behave exactly as on the
well-formed doubled configuration made of the input's first `N` and last `N`
entries (which has length exactly `2 * N`), with every callback invoked as
usual. -/
theorem C7_no_size_validation (L : LindbladianConns) (v : Config)
    (h : L.N ≤ v.length) :
    connList L v = connList L (v.take L.N ++ v.drop (v.length - L.N))
    ∧ (v.take L.N ++ v.drop (v.length - L.N)).length = 2 * L.N
    ∧ ∀ (mel0 : List Cplx) (connectors0 : List (List ℕ)) (newconfs0 : List (List ℚ)),
        FindConn L v mel0 connectors0 newconfs0
          = FindConn L (v.take L.N ++ v.drop (v.length - L.N)) mel0 connectors0 newconfs0 := by
  have hA : (v.take L.N).length = L.N := by
    rw [List.length_take]
    omega
  have hB : (v.drop (v.length - L.N)).length = L.N := by
    rw [List.length_drop]
    omega
  have hw : (v.take L.N ++ v.drop (v.length - L.N)).length = 2 * L.N := by
    rw [List.length_append, hA, hB]
    omega
  have ht : (v.take L.N ++ v.drop (v.length - L.N)).take L.N = v.take L.N :=
    List.take_left' hA
  have hd : (v.take L.N ++ v.drop (v.length - L.N)).drop
      ((v.take L.N ++ v.drop (v.length - L.N)).length - L.N)
        = v.drop (v.length - L.N) := by
    rw [hw, show 2 * L.N - L.N = L.N from by omega]
    exact List.drop_left' hA
  have hc : connList L v = connList L (v.take L.N ++ v.drop (v.length - L.N)) := by
    rw [connList_eq, connList_eq, ht, hd]
  refine ⟨hc, hw, fun mel0 connectors0 newconfs0 => ?_⟩
  rw [findConn_eq_connList, findConn_eq_connList, hc]

/-- C7 amended-claim witness: the theorem applied to a concrete state and a
configuration of length `3` (not `2 * N = 2`). -/
theorem C7_no_size_validation_witness :
    connList emptyJumpL v7
        = connList emptyJumpL (v7.take emptyJumpL.N ++ v7.drop (v7.length - emptyJumpL.N))
    ∧ (v7.take emptyJumpL.N ++ v7.drop (v7.length - emptyJumpL.N)).length = 2 * emptyJumpL.N
    ∧ ∀ (mel0 : List Cplx) (connectors0 : List (List ℕ)) (newconfs0 : List (List ℚ)),
        FindConn emptyJumpL v7 mel0 connectors0 newconfs0
          = FindConn emptyJumpL (v7.take emptyJumpL.N ++ v7.drop (v7.length - emptyJumpL.N))
              mel0 connectors0 newconfs0 :=
  C7_no_size_validation emptyJumpL v7 (by decide)
